import Mathlib

/-!
Shallow embedding of the decoding core of the `neural_sp` RNN decoder
(`neural_sp/models/seq2seq/decoders/las.py`): the recurrent state cell
(`recurrency`), greedy decoding (`greedy`), whole-utterance beam search
(`beam_search`, one utterance), the ensemble score combination inside
`beam_search`, and chunk-synchronous beam search
(`beam_search_chunk_sync`).

Modelling conventions:
* Scores are rationals (`ℚ`), standing for the floating-point
  log-probabilities of the source.
* The neural networks, the attention module, the CTC prefix scorer and
  the language models are black boxes to the decoding loops (they are
  external collaborators with contracts, per the module docstrings).
  For a fixed input their per-step outputs are deterministic functions
  of the hypothesis token prefix (and, for the streaming decoder, of
  the step index, because the stored attention history is mutated on
  pass-through), so they are modelled as oracle functions carried in an
  oracle record.  `math.pow` on floats is likewise an opaque binary
  function `powfn`.
* Python runtime errors reachable from the decoding loops
  (`torch.cat` over an empty list when the live set is empty,
  `.max(0)` over an empty tensor slice in the eos-threshold test,
  `torch.topk` with `k` larger than the scored dimension, list
  indexing out of range when building the n-best list, failing
  `assert` statements) are modelled by `Option`: a `none` result is an
  abnormal termination of the call.
* `sorted(..., reverse=True)` and `torch.topk(..., largest=True,
  sorted=True)` are modelled by an insertion sort on descending keys;
  the order of exactly tied scores is unspecified in the source
  (float ties) and no theorem below depends on it.
-/

attribute [local semireducible] Rat.add Rat.mul Rat.sub Rat.inv Rat.ofScientific

/-- Insert `x` into a list kept sorted by descending `key`. -/
def insertDesc {α : Type} (key : α → ℚ) (x : α) : List α → List α
  | [] => [x]
  | y :: ys => if key y < key x then x :: y :: ys else y :: insertDesc key x ys

/-- Sort a list by descending `key` (models Python `sorted(..., reverse=True)`
and the ordering produced by `torch.topk(..., sorted=True)`). -/
def sortDescBy {α : Type} (key : α → ℚ) : List α → List α
  | [] => []
  | x :: xs => insertDesc key x (sortDescBy key xs)

theorem insertDesc_perm {α : Type} (key : α → ℚ) (x : α) (l : List α) :
    (insertDesc key x l).Perm (x :: l) := by
  induction l with
  | nil => simp [insertDesc]
  | cons y ys ih =>
    by_cases h : key y < key x
    · simp [insertDesc, h]
    · simp only [insertDesc, if_neg h]
      exact (ih.cons y).trans (List.Perm.swap x y ys)

theorem sortDescBy_perm {α : Type} (key : α → ℚ) (l : List α) :
    (sortDescBy key l).Perm l := by
  induction l with
  | nil => simp [sortDescBy]
  | cons x xs ih =>
    exact (insertDesc_perm key x (sortDescBy key xs)).trans (ih.cons x)

theorem sortDescBy_length {α : Type} (key : α → ℚ) (l : List α) :
    (sortDescBy key l).length = l.length :=
  (sortDescBy_perm key l).length_eq

/-- Maximum of a list of scores; `none` on the empty list (where the
source's `.max(0)` on an empty tensor slice raises a RuntimeError). -/
def listMax : List ℚ → Option ℚ
  | [] => none
  | x :: xs =>
    match listMax xs with
    | none => some x
    | some m => some (max x m)

theorem listMax_eq_none {l : List ℚ} (h : listMax l = none) : l = [] := by
  cases l with
  | nil => rfl
  | cons x xs => cases hx : listMax xs <;> simp [listMax, hx] at h

theorem listMax_of_ne_nil {l : List ℚ} (h : l ≠ []) : ∃ m, listMax l = some m := by
  cases l with
  | nil => exact absurd rfl h
  | cons x xs => cases hx : listMax xs <;> simp [listMax, hx]

theorem listMax_append {l₁ l₂ : List ℚ} {m₁ m₂ : ℚ}
    (h₁ : listMax l₁ = some m₁) (h₂ : listMax l₂ = some m₂) :
    listMax (l₁ ++ l₂) = some (max m₁ m₂) := by
  induction l₁ generalizing m₁ with
  | nil => simp [listMax] at h₁
  | cons x xs ih =>
    cases hx : listMax xs with
    | none =>
      have hxs : xs = [] := listMax_eq_none hx
      subst hxs
      simp [listMax] at h₁
      subst h₁
      simp [listMax, h₂]
    | some mm =>
      simp [listMax, hx] at h₁
      subst h₁
      have := ih hx
      simp [listMax, this, h₂, max_assoc]

/-- Indices (into the scored vector) and values of the `k` largest entries,
in descending order; models `torch.topk(xs, k, largest=True, sorted=True)`,
which raises when `k` exceeds the scored dimension (hence `none`). -/
def topkPairs (k : Nat) (xs : List ℚ) : Option (List (Nat × ℚ)) :=
  if xs.length < k then none
  else some ((sortDescBy Prod.snd xs.enum).take k)

theorem topkPairs_length {k : Nat} {xs : List ℚ} {l : List (Nat × ℚ)}
    (h : topkPairs k xs = some l) : l.length = k := by
  unfold topkPairs at h
  split at h
  · exact absurd h (by simp)
  · next hk =>
    rw [Option.some.injEq] at h
    subst h
    simp only [List.length_take, sortDescBy_length, List.enum_length]
    omega

/-- Maximum number of decoding steps, `int(math.floor(T * max_len_ratio)) + 1`
(las.py 761, 950, 1247). -/
def ytimeOf (xtime : Nat) (r : ℚ) : Nat := (⌊(xtime : ℚ) * r⌋ + 1).toNat

/-! ## Recurrent state cell (`RNNDecoder.recurrency`, las.py 616-659) -/

/-- Output record of `recurrency`: the attention ("score") view, the
generation view, and the per-layer stacked hidden and cell states. -/
structure RecOut (α : Type) where
  dout_score : Option α
  dout_gen : α
  hxs : List α
  cxs : List α

/-- Layer loop of `RNNDecoder.recurrency` (las.py 638-658).  The LSTM-style
cell is abstracted as `cell l input (h, c) = (h', c')`; dropout and the
composite `tanh ∘ proj[l]` are opaque functions (the GRU path differs from
the LSTM path only in carrying no cell state, which no property below
observes).  Per layer: the cell output passes through dropout, then — when
`0 < n_projs` — through the projection; the layer-0 value of `dout` after
those assignments is recorded as `dout_score`, and the final `dout`
becomes `dout_gen`. -/
def recGo {α : Type} (n_projs : Nat) (cell : Nat → α → α × α → α × α)
    (dropout : α → α) (proj : Nat → α → α) (dstate : Nat → α × α) :
    List Nat → α → Option α → List α → List α → RecOut α
  | [], dout, score, hs, cs => ⟨score, dout, hs, cs⟩
  | l :: rest, dout, score, hs, cs =>
    let hc := cell l dout (dstate l)
    let d1 := dropout hc.1
    let d2 := if 0 < n_projs then proj l d1 else d1
    recGo n_projs cell dropout proj dstate rest d2
      (if l = 0 then some d2 else score) (hs ++ [hc.1]) (cs ++ [hc.2])

/-- Embedding of `RNNDecoder.recurrency` (las.py 616-659). -/
def recurrency {α : Type} (n_layers n_projs : Nat)
    (cell : Nat → α → α × α → α × α) (dropout : α → α) (proj : Nat → α → α)
    (inputs : α) (dstate : Nat → α × α) : RecOut α :=
  recGo n_projs cell dropout proj dstate (List.range n_layers) inputs none [] []

/-- Projection step as configured: apply `proj` only when `0 < n_projs`. -/
def applyProj {α : Type} (n_projs : Nat) (proj : Nat → α → α) (l : Nat) (x : α) : α :=
  if 0 < n_projs then proj l x else x

theorem recGo_score_frozen {α : Type} (n_projs : Nat)
    (cell : Nat → α → α × α → α × α) (dropout : α → α) (proj : Nat → α → α)
    (dstate : Nat → α × α) :
    ∀ (ls : List Nat) (d s : α) (hs cs : List α), (∀ l ∈ ls, l ≠ 0) →
      (recGo n_projs cell dropout proj dstate ls d (some s) hs cs).dout_score = some s := by
  intro ls
  induction ls with
  | nil => intro d s hs cs _; rfl
  | cons l rest ih =>
    intro d s hs cs h
    have hl : l ≠ 0 := h l (by simp)
    simp only [recGo, if_neg hl]
    exact ih _ _ _ _ (fun x hx => h x (by simp [hx]))

theorem recGo_append {α : Type} (n_projs : Nat)
    (cell : Nat → α → α × α → α × α) (dropout : α → α) (proj : Nat → α → α)
    (dstate : Nat → α × α) :
    ∀ (l₁ l₂ : List Nat) (d : α) (s : Option α) (hs cs : List α),
      recGo n_projs cell dropout proj dstate (l₁ ++ l₂) d s hs cs =
      recGo n_projs cell dropout proj dstate l₂
        (recGo n_projs cell dropout proj dstate l₁ d s hs cs).dout_gen
        (recGo n_projs cell dropout proj dstate l₁ d s hs cs).dout_score
        (recGo n_projs cell dropout proj dstate l₁ d s hs cs).hxs
        (recGo n_projs cell dropout proj dstate l₁ d s hs cs).cxs := by
  intro l₁
  induction l₁ with
  | nil => intro l₂ d s hs cs; rfl
  | cons l rest ih =>
    intro l₂ d s hs cs
    simp only [List.cons_append, recGo]
    exact ih _ _ _ _ _

/-- Claim C4 (amended): in `recurrency` the score view handed to attention
is the first layer's output after dropout and after the configured
projection-plus-nonlinearity (when `n_projs > 0`; without a projection it
is the plain post-dropout output), and the generation view is the last
layer's output after dropout and the configured projection, obtained by
feeding the generation output of the first `m` layers into layer `m`. -/
theorem recurrency_views {α : Type} (n_layers n_projs : Nat)
    (cell : Nat → α → α × α → α × α) (dropout : α → α) (proj : Nat → α → α)
    (inputs : α) (dstate : Nat → α × α) (h : 0 < n_layers) :
    (recurrency n_layers n_projs cell dropout proj inputs dstate).dout_score
      = some (applyProj n_projs proj 0 (dropout (cell 0 inputs (dstate 0)).1))
  ∧ ∀ m, n_layers = m + 1 →
      (recurrency n_layers n_projs cell dropout proj inputs dstate).dout_gen
        = applyProj n_projs proj m (dropout
            ((cell m (recurrency m n_projs cell dropout proj inputs dstate).dout_gen
              (dstate m)).1)) := by
  constructor
  · obtain ⟨k, hk⟩ : ∃ k, n_layers = k + 1 := ⟨n_layers - 1, by omega⟩
    subst hk
    unfold recurrency
    rw [List.range_succ_eq_map]
    simp only [recGo, eq_self_iff_true, if_true]
    rw [recGo_score_frozen]
    · simp [applyProj]
    · intro x hx
      simp only [List.mem_map] at hx
      obtain ⟨y, _, hy⟩ := hx
      omega
  · intro m hm
    subst hm
    unfold recurrency
    rw [List.range_succ, recGo_append]
    simp only [recGo, applyProj]

/-- Test cell: layer output is input plus hidden state plus one. -/
def cellT (_l : Nat) (d : ℕ) (hc : ℕ × ℕ) : ℕ × ℕ := (d + hc.1 + 1, hc.2)

/-- Test dropout: doubling. -/
def dropT (x : ℕ) : ℕ := x * 2

/-- Test projection: add five. -/
def projT (_l : Nat) (x : ℕ) : ℕ := x + 5

/-- Test initial recurrent state: zeros. -/
def dstT (_l : Nat) : ℕ × ℕ := (0, 0)

/-- Claim C4 counterexample: with one layer and a configured projection
(`n_projs = 1`), the score view is NOT the first layer's post-dropout
pre-projection output — the source assigns `dout_score` only after the
projection branch has replaced `dout` (las.py 646-651). -/
theorem recurrency_score_view_counterexample :
    ¬ ((recurrency 1 1 cellT dropT projT 0 dstT).dout_score
        = some (dropT (cellT 0 0 (dstT 0)).1)) := by decide

/-- Claim C4 witness: the amended description evaluated on a concrete
one-layer configuration with a projection. -/
theorem recurrency_views_witness :
    (recurrency 1 1 cellT dropT projT 0 dstT).dout_score
      = some (applyProj 1 projT 0 (dropT (cellT 0 0 (dstT 0)).1))
  ∧ (recurrency 1 1 cellT dropT projT 0 dstT).dout_gen
      = applyProj 1 projT 0 (dropT
          ((cellT 0 (recurrency 0 1 cellT dropT projT 0 dstT).dout_gen (dstT 0)).1)) :=
  ⟨(recurrency_views 1 1 cellT dropT projT 0 dstT (by decide)).1,
   (recurrency_views 1 1 cellT dropT projT 0 dstT (by decide)).2 0 rfl⟩

/-! ## Greedy decoding (`RNNDecoder.greedy`, las.py 721-827)

The network pipeline of a step (`decode_step` plus `argmax`) is
deterministic for a fixed input, so the token emitted for utterance `b`
at step `t` is abstracted as an oracle `emit b t`.  The loop state that
the claims observe is the per-utterance eos flag and tracked length,
modelled as functions on the batch index. -/

/-- Per-step bookkeeping of `greedy` (las.py 776-781): for every
utterance `b < bs` whose eos flag is not yet set, set the flag when the
emitted token is `eos`, and increment the tracked length (the length
update runs for the eos step as well, so `<eos>` is counted). -/
def greedyStepF (eos bs : Nat) (tok : Nat → Nat) (flags : Nat → Bool) (ylens : Nat → Nat) :
    (Nat → Bool) × (Nat → Nat) :=
  (fun b => if b < bs ∧ flags b = false ∧ tok b = eos then true else flags b,
   fun b => if b < bs ∧ flags b = false then ylens b + 1 else ylens b)

/-- Decoding loop of `greedy` (las.py 762-787): runs for at most the
remaining fuel, breaking early when every utterance in the batch has
emitted `<eos>` (`sum(eos_flags) == bs`, modelled as `countP` over the
batch range) or at the last step (`t == ytime - 1`, which is fuel `0`
after the update).  Returns the number of executed steps together with
the final flags and lengths. -/
def greedyGo (eos bs : Nat) (emit : Nat → Nat → Nat) :
    Nat → Nat → (Nat → Bool) → (Nat → Nat) → Nat × (Nat → Bool) × (Nat → Nat)
  | t, 0, flags, ylens => (t, flags, ylens)
  | t, fuel + 1, flags, ylens =>
    let st := greedyStepF eos bs (fun b => emit b t) flags ylens
    if (List.range bs).countP st.1 = bs then (t + 1, st.1, st.2)
    else if fuel = 0 then (t + 1, st.1, st.2)
    else greedyGo eos bs emit (t + 1) fuel st.1 st.2

/-- Embedding of the `greedy` loop for `ytime` maximum steps, started
from all-false flags and zero lengths (las.py 755-756). -/
def greedyRun (eos bs ytime : Nat) (emit : Nat → Nat → Nat) :
    Nat × (Nat → Bool) × (Nat → Nat) :=
  greedyGo eos bs emit 0 ytime (fun _ => false) (fun _ => 0)

/-- Truncated hypothesis for utterance `b` (las.py 807): the emitted
tokens of the executed steps, truncated to the tracked length. -/
def greedyHyp (eos bs ytime : Nat) (emit : Nat → Nat → Nat) (b : Nat) : List Nat :=
  ((List.range (greedyRun eos bs ytime emit).1).map (emit b)).take
    ((greedyRun eos bs ytime emit).2.2 b)

/-- Loop invariant of `greedy` after `t` executed steps: an unflagged
utterance has tracked length exactly `t` and has emitted no `<eos>` so
far; a flagged utterance emitted its first `<eos>` at position
`ylens b - 1` and nothing before that is `<eos>`. -/
def GInv (eos bs : Nat) (emit : Nat → Nat → Nat) (t : Nat)
    (flags : Nat → Bool) (ylens : Nat → Nat) : Prop :=
  ∀ b, b < bs →
    (flags b = false → ylens b = t ∧ ∀ i, i < t → emit b i ≠ eos) ∧
    (flags b = true → 0 < ylens b ∧ ylens b ≤ t ∧ emit b (ylens b - 1) = eos ∧
      ∀ i, i + 1 < ylens b → emit b i ≠ eos)

theorem GInv_step (eos bs : Nat) (emit : Nat → Nat → Nat) (t : Nat)
    (flags : Nat → Bool) (ylens : Nat → Nat) (h : GInv eos bs emit t flags ylens) :
    GInv eos bs emit (t + 1)
      (greedyStepF eos bs (fun b => emit b t) flags ylens).1
      (greedyStepF eos bs (fun b => emit b t) flags ylens).2 := by
  intro b hb
  have hB := h b hb
  constructor
  · intro hf
    simp only [greedyStepF] at hf ⊢
    by_cases hfb : flags b = false
    · by_cases he : emit b t = eos
      · rw [if_pos ⟨hb, hfb, he⟩] at hf
        exact absurd hf (by simp)
      · have hy := (hB.1 hfb).1
        have hprev := (hB.1 hfb).2
        rw [if_pos ⟨hb, hfb⟩]
        refine ⟨by omega, ?_⟩
        intro i hi
        by_cases hit : i < t
        · exact hprev i hit
        · have hieq : i = t := by omega
          subst hieq
          exact he
    · have hft : flags b = true := by
        cases hcase : flags b
        · exact absurd hcase hfb
        · rfl
      rw [if_neg (by simp [hft])] at hf
      rw [hft] at hf
      exact absurd hf (by simp)
  · intro hf
    simp only [greedyStepF] at hf ⊢
    by_cases hfb : flags b = false
    · have he : emit b t = eos := by
        by_contra hne
        rw [if_neg (by simp [hne])] at hf
        rw [hfb] at hf
        exact absurd hf (by simp)
      have hy := (hB.1 hfb).1
      have hprev := (hB.1 hfb).2
      rw [if_pos ⟨hb, hfb⟩]
      refine ⟨by omega, by omega, ?_, ?_⟩
      · have hsub : ylens b + 1 - 1 = t := by omega
        rw [hsub]
        exact he
      · intro i hi
        exact hprev i (by omega)
    · have hft : flags b = true := by
        cases hcase : flags b
        · exact absurd hcase hfb
        · rfl
      have hTrue := hB.2 hft
      rw [if_neg (by simp [hft])]
      exact ⟨hTrue.1, by omega, hTrue.2.2.1, hTrue.2.2.2⟩

theorem greedyGo_spec (eos bs : Nat) (emit : Nat → Nat → Nat) :
    ∀ (fuel t : Nat) (flags : Nat → Bool) (ylens : Nat → Nat),
      GInv eos bs emit t flags ylens →
      GInv eos bs emit (greedyGo eos bs emit t fuel flags ylens).1
          (greedyGo eos bs emit t fuel flags ylens).2.1
          (greedyGo eos bs emit t fuel flags ylens).2.2
      ∧ t ≤ (greedyGo eos bs emit t fuel flags ylens).1
      ∧ (greedyGo eos bs emit t fuel flags ylens).1 ≤ t + fuel
      ∧ ((greedyGo eos bs emit t fuel flags ylens).1 < t + fuel →
          ∀ b, b < bs → (greedyGo eos bs emit t fuel flags ylens).2.1 b = true) := by
  intro fuel
  induction fuel with
  | zero =>
    intro t flags ylens hI
    simp only [greedyGo]
    exact ⟨hI, Nat.le_refl t, by omega, fun h => absurd h (by omega)⟩
  | succ fuel ih =>
    intro t flags ylens hI
    have hstep := GInv_step eos bs emit t flags ylens hI
    simp only [greedyGo]
    by_cases hall : (List.range bs).countP
        (greedyStepF eos bs (fun b => emit b t) flags ylens).1 = bs
    · rw [if_pos hall]
      refine ⟨hstep, by omega, by omega, fun _ b hb => ?_⟩
      have hall' : (List.range bs).countP
          (greedyStepF eos bs (fun b => emit b t) flags ylens).1
            = (List.range bs).length := by
        rw [List.length_range]
        exact hall
      exact List.countP_eq_length.mp hall' b (List.mem_range.mpr hb)
    · rw [if_neg hall]
      by_cases hfz : fuel = 0
      · subst hfz
        rw [if_pos rfl]
        exact ⟨hstep, by omega, by omega, fun h => absurd h (by omega)⟩
      · rw [if_neg hfz]
        have := ih (t + 1)
          (greedyStepF eos bs (fun b => emit b t) flags ylens).1
          (greedyStepF eos bs (fun b => emit b t) flags ylens).2 hstep
        exact ⟨this.1, by omega, by omega, fun h => this.2.2.2 (by omega)⟩

/-- Claim C9: greedy decoding executes at most
`floor(encoder_length * max_len_ratio) + 1` steps, exits earlier only
when every utterance in the batch has emitted the end symbol, a
flagged utterance's tracked length never grows at a step, and the
returned truncated sequence of every utterance contains the end symbol
at most once, at its final position. -/
theorem greedy_termination_properties (eos bs xtime : Nat) (mlr : ℚ)
    (emit : Nat → Nat → Nat) :
    (greedyRun eos bs (ytimeOf xtime mlr) emit).1 ≤ ytimeOf xtime mlr
  ∧ ((greedyRun eos bs (ytimeOf xtime mlr) emit).1 < ytimeOf xtime mlr →
      ∀ b, b < bs → (greedyRun eos bs (ytimeOf xtime mlr) emit).2.1 b = true)
  ∧ (∀ (tok : Nat → Nat) (flags : Nat → Bool) (ylens : Nat → Nat) (b : Nat),
      flags b = true → (greedyStepF eos bs tok flags ylens).2 b = ylens b)
  ∧ (∀ b, b < bs → ∀ i, i + 1 < (greedyHyp eos bs (ytimeOf xtime mlr) emit b).length →
      (greedyHyp eos bs (ytimeOf xtime mlr) emit b)[i]? ≠ some eos) := by
  have hI0 : GInv eos bs emit 0 (fun _ => false) (fun _ => 0) := by
    intro b hb
    constructor
    · intro _
      exact ⟨rfl, fun i hi => absurd hi (by omega)⟩
    · intro hf
      simp at hf
  have hspec := greedyGo_spec eos bs emit (ytimeOf xtime mlr) 0
    (fun _ => false) (fun _ => 0) hI0
  refine ⟨by simpa using hspec.2.2.1, ?_, ?_, ?_⟩
  · intro hlt b hb
    exact hspec.2.2.2 (by simpa using hlt) b hb
  · intro tok flags ylens b hf
    simp [greedyStepF, hf]
  · intro b hb i hlen
    set r := greedyRun eos bs (ytimeOf xtime mlr) emit with hr
    have hInv : GInv eos bs emit r.1 r.2.1 r.2.2 := hspec.1
    have hB := hInv b hb
    have hhyp : greedyHyp eos bs (ytimeOf xtime mlr) emit b
        = ((List.range r.1).map (emit b)).take (r.2.2 b) := rfl
    rw [hhyp] at hlen ⊢
    have hlen' : i + 1 < min (r.2.2 b) r.1 := by
      simpa only [List.length_take, List.length_map, List.length_range] using hlen
    have hiy : i + 1 ≤ r.2.2 b := by omega
    have hir : i < r.1 := by omega
    rw [List.getElem?_take_of_lt (by omega), List.getElem?_map,
        List.getElem?_range hir]
    cases hfb : r.2.1 b with
    | false =>
      have hne := (hB.1 hfb).2
      have hy := (hB.1 hfb).1
      intro hcon
      exact hne i (by omega) (by simpa using hcon)
    | true =>
      have hT := hB.2 hfb
      intro hcon
      exact hT.2.2.2 i (by omega) (by simpa using hcon)

/-- Test token oracle for greedy decoding: token `5` at step `0`, then
`<eos>` (`0`). -/
def emitW (_b t : Nat) : Nat := if t = 0 then 5 else 0

/-- Claim C9 witness: the termination bound, the early-exit flag, the
frozen-length property and the truncated-sequence property evaluated on
a concrete one-utterance input. -/
theorem greedy_termination_witness :
    (greedyRun 0 1 (ytimeOf 1 2) emitW).1 ≤ ytimeOf 1 2
  ∧ (greedyRun 0 1 (ytimeOf 1 2) emitW).2.1 0 = true
  ∧ (greedyStepF 0 1 (fun _ => 0) (fun _ => true) (fun _ => 5)).2 0 = 5
  ∧ (greedyHyp 0 1 (ytimeOf 1 2) emitW 0)[0]? ≠ some 0 := by
  have h := greedy_termination_properties 0 1 1 2 emitW
  exact ⟨h.1, h.2.1 (by decide) 0 (by decide), h.2.2.1 (fun _ => 0) (fun _ => true) (fun _ => 5) 0 rfl,
         h.2.2.2 0 (by decide) 0 (by decide)⟩

/-! ## Whole-utterance beam search (`RNNDecoder.beam_search`, las.py 829-1190)

The per-utterance loop is embedded for one utterance.  The batched
network step (las.py 982-1011), which for a fixed input is a
deterministic function of each hypothesis's token prefix, is abstracted
by the oracle `sattn` giving each hypothesis's per-step log-probability
row (the post-ensemble `scores_attn`); the shallow-fusion LM
(`lm.predict`), the CTC prefix scorer (whose opaque incremental state
is a function of the prefix by its contract), the coverage-penalty
scalar computed from the stored attention history, and `math.pow` are
abstracted the same way.  Tensor state slicing (`dstates`, `cv`,
`aws`, `lmstate`) is not observed by any score or by the hypothesis
lifecycle and is omitted from the hypothesis record. -/

/-- Hypothesis record of `beam_search` (las.py 933-945, 1088-1102):
token sequence (starting with `<eos>` used as `<sos>`) and the
cumulative score components.  `score_cp` is `0` for the initial
hypothesis (the source's initial dict simply lacks the key). -/
structure BeamHyp where
  hyp : List Nat
  score : ℚ
  score_attn : ℚ
  score_cp : ℚ
  score_ctc : ℚ
  score_lm : ℚ
deriving DecidableEq

/-- Decoding parameters of `beam_search` (las.py 869-886). -/
structure BeamParams where
  beam_width : Nat
  nbest : Nat
  eos : Nat
  vocab : Nat
  ctc_weight : ℚ
  lm_weight : ℚ
  lp_weight : ℚ
  gnmt_decoding : Bool
  cp_weight : ℚ
  length_norm : Bool
  eos_threshold : ℚ
  min_len_rat : ℚ
  max_len_rat : ℚ
deriving DecidableEq

/-- Oracles standing for the external collaborators of `beam_search`:
`sattn prefix v` is this step's combined attention-path log-probability
of token `v` after the prefix (las.py 986-1011); `slm` the shallow-fusion
LM scores (`none` when no LM is passed); `ctc prefix v` the cumulative
CTC prefix score (`none` when no CTC lattice is passed); `cpOf` the
coverage-penalty scalar recomputed from the attention history; `powfn`
stands for `math.pow`. -/
structure BeamOracles where
  sattn : List Nat → Nat → ℚ
  slm : Option (List Nat → Nat → ℚ)
  ctc : Option (List Nat → Nat → ℚ)
  cpOf : List Nat → ℚ
  powfn : ℚ → ℚ → ℚ

/-- Hypothesis length excluding the leading start symbol,
`len(beam['hyp'][1:])`, as a score. -/
def hlenQ (beam : BeamHyp) : ℚ := ((beam.hyp.length - 1 : Nat) : ℚ)

/-- One candidate slot of the per-hypothesis top-k block: candidate
token id, running `total_scores_topk` entry, and the
`total_scores_lm` / `total_scores_ctc` entries stored for the slot. -/
structure CandRow where
  id : Nat
  tsk : ℚ
  lm : ℚ
  ctc : ℚ
deriving DecidableEq

/-- Per-step attention-path scores over the vocabulary,
`(beam['score_attn'] + scores_attn) * (1 - ctc_weight)`
(las.py 1016-1017). -/
def attnTotalScores (P : BeamParams) (O : BeamOracles) (beam : BeamHyp) : List ℚ :=
  (List.range P.vocab).map
    (fun v => (beam.score_attn + O.sattn beam.hyp v) * (1 - P.ctc_weight))

/-- LM stage (las.py 1019-1026): the top-k attention-path candidates,
with the weighted cumulative LM score added after the top-k selection;
`total_scores_lm` is a zero vector when no LM is configured. -/
def lmStage (P : BeamParams) (O : BeamOracles) (beam : BeamHyp)
    (pre : List (Nat × ℚ)) : List CandRow :=
  match O.slm with
  | some lmf =>
    pre.map (fun p =>
      { id := p.1, tsk := p.2 + (beam.score_lm + lmf beam.hyp p.1) * P.lm_weight,
        lm := beam.score_lm + lmf beam.hyp p.1, ctc := 0 })
  | none => pre.map (fun p => { id := p.1, tsk := p.2, lm := 0, ctc := 0 })

/-- Length-penalty stage (las.py 1028-1034): GNMT-style division by
`pow(6 + len, p) / pow(6, p)` or additive `(len + 1) * p`, applied only
when `lp_weight > 0`. -/
def lpStage (P : BeamParams) (O : BeamOracles) (beam : BeamHyp)
    (rows : List CandRow) : List CandRow :=
  if 0 < P.lp_weight then
    if P.gnmt_decoding then
      rows.map (fun r =>
        { r with tsk := r.tsk /
            (O.powfn (6 + hlenQ beam) P.lp_weight / O.powfn 6 P.lp_weight) })
    else
      rows.map (fun r => { r with tsk := r.tsk + (hlenQ beam + 1) * P.lp_weight })
  else rows

/-- Coverage-penalty stage (las.py 1036-1054): a scalar computed from
the attention-weight history, added uniformly to every candidate, only
when `cp_weight > 0`. -/
def cpStage (P : BeamParams) (O : BeamOracles) (beam : BeamHyp)
    (rows : List CandRow) : List CandRow :=
  if 0 < P.cp_weight then
    rows.map (fun r => { r with tsk := r.tsk + O.cpOf beam.hyp * P.cp_weight })
  else rows

/-- CTC stage (las.py 1056-1069): weighted cumulative CTC prefix scores
added to the pre-selected candidates, followed by a second top-k re-sort
restricted to those candidates.  The stored `total_scores_ctc` and
`total_scores_lm` slots keep their pre-re-sort index `k`, exactly as in
the source (las.py 1093-1094). -/
def ctcStage (P : BeamParams) (O : BeamOracles) (beam : BeamHyp)
    (rows : List CandRow) : List CandRow :=
  match O.ctc with
  | some ctcf =>
    let rows2 := rows.map (fun r =>
      { r with ctc := ctcf beam.hyp r.id,
               tsk := r.tsk + ctcf beam.hyp r.id * P.ctc_weight })
    List.zipWith (fun s o => { id := s.id, tsk := s.tsk, lm := o.lm, ctc := o.ctc })
      ((sortDescBy CandRow.tsk rows2).take P.beam_width) rows2
  | none => rows

/-- Candidate block of one live hypothesis at one step
(las.py 1014-1069): attention-path top-k pre-selection followed by the
LM, length-penalty, coverage-penalty and CTC stages.  `none` models the
`torch.topk` error when `beam_width` exceeds the vocabulary size. -/
def candidateRows (P : BeamParams) (O : BeamOracles) (beam : BeamHyp) :
    Option (List CandRow) :=
  match topkPairs P.beam_width (attnTotalScores P O beam) with
  | none => none
  | some pre => some (ctcStage P O beam (cpStage P O beam (lpStage P O beam (lmStage P O beam pre))))

/-- End-symbol admission test (las.py 1078-1086): reject (`some true`)
when the hypothesis is shorter than `elens * min_len_ratio`, otherwise
compare the end symbol's attention log-probability against
`eos_threshold` times the maximum over the two non-eos slices; `none`
models the RuntimeError of `.max(0)` on an empty slice (end symbol at
index `0` or `vocab - 1`). -/
def eosGuard (P : BeamParams) (O : BeamOracles) (elens : Nat) (beam : BeamHyp) :
    Option Bool :=
  if hlenQ beam < (elens : ℚ) * P.min_len_rat then some true
  else
    let row := (List.range P.vocab).map (O.sattn beam.hyp)
    match listMax (row.take P.eos), listMax (row.drop (P.eos + 1)) with
    | some m1, some m2 =>
      some (decide (O.sattn beam.hyp P.eos ≤ P.eos_threshold * max m1 m2))
    | _, _ => none

/-- New hypothesis built from candidate slot `r` (las.py 1088-1102):
the parent's tokens with the candidate appended, the length-normalised
total score, and the updated cumulative components. -/
def stepHyp (P : BeamParams) (O : BeamOracles) (beam : BeamHyp) (cp : ℚ)
    (r : CandRow) : BeamHyp :=
  { hyp := beam.hyp ++ [r.id],
    score := r.tsk / (if P.length_norm then hlenQ beam + 1 else 1),
    score_attn := beam.score_attn + O.sattn beam.hyp r.id,
    score_cp := cp,
    score_ctc := r.ctc,
    score_lm := r.lm }

/-- Per-candidate loop of one hypothesis (las.py 1071-1102): each slot
becomes a new hypothesis unless it is an end-symbol candidate rejected
by `eosGuard`; a `none` from `eosGuard` aborts the whole call. -/
def collectCands (P : BeamParams) (O : BeamOracles) (elens : Nat) (beam : BeamHyp)
    (cp : ℚ) : List CandRow → Option (List BeamHyp)
  | [] => some []
  | r :: rest =>
    if r.id = P.eos then
      match eosGuard P O elens beam with
      | none => none
      | some true => collectCands P O elens beam cp rest
      | some false =>
        (collectCands P O elens beam cp rest).map (stepHyp P O beam cp r :: ·)
    else
      (collectCands P O elens beam cp rest).map (stepHyp P O beam cp r :: ·)

/-- Expansion of one live hypothesis at one step: candidate block, the
coverage-penalty scalar stored with the children (las.py 1037-1054,
1092), then the per-candidate loop. -/
def expandBeam (P : BeamParams) (O : BeamOracles) (elens : Nat) (beam : BeamHyp) :
    Option (List BeamHyp) :=
  match candidateRows P O beam with
  | none => none
  | some rows =>
    collectCands P O elens beam (if 0 < P.cp_weight then O.cpOf beam.hyp else 0) rows

/-- All `(hypothesis, candidate)` children of one step, in the source's
`j`-then-`k` order (las.py 1013-1102). -/
def beamStep (P : BeamParams) (O : BeamOracles) (elens : Nat) :
    List BeamHyp → Option (List BeamHyp)
  | [] => some []
  | b :: rest =>
    match expandBeam P O elens b, beamStep P O elens rest with
    | some c, some r => some (c ++ r)
    | _, _ => none

/-- Completion test (las.py 1116): the hypothesis has emitted a token
and its last token is the end symbol. -/
def isComplete (eos : Nat) (h : BeamHyp) : Bool :=
  decide (1 < h.hyp.length) && decide (h.hyp.getLast? = some eos)

/-- One iteration body of the per-utterance loop (las.py 1013-1119):
children, local pruning to `beam_width` by total score, and the split
into newly completed and still-live hypotheses (order preserved). -/
def beamIter (P : BeamParams) (O : BeamOracles) (elens : Nat)
    (hyps : List BeamHyp) : Option (List BeamHyp × List BeamHyp) :=
  match beamStep P O elens hyps with
  | none => none
  | some cands =>
    some (((sortDescBy BeamHyp.score cands).take P.beam_width).partition (isComplete P.eos))

/-- Per-utterance decoding loop (las.py 951-1123): at each iteration the
live hypotheses are batched (`torch.cat` raises on an empty live set,
hence `none`), expanded, pruned, and completed hypotheses accumulate;
the loop breaks early once `beam_width` hypotheses are complete,
returning the truncated completed set together with the live set
variable as the source leaves it. -/
def beamLoop (P : BeamParams) (O : BeamOracles) (elens : Nat) :
    Nat → List BeamHyp → List BeamHyp → Option (List BeamHyp × List BeamHyp)
  | 0, hyps, ends => some (ends, hyps)
  | fuel + 1, hyps, ends =>
    if hyps.isEmpty then none
    else
      match beamIter P O elens hyps with
      | none => none
      | some cl =>
        if P.beam_width ≤ (ends ++ cl.1).length then
          some ((ends ++ cl.1).take P.beam_width, hyps)
        else beamLoop P O elens fuel cl.2 (ends ++ cl.1)

/-- Embedding of `beam_search` for a single utterance (las.py 900-1190,
non-oracle forward path, without the optional second-pass LM rescoring):
the `assert 1 <= nbest <= beam_width` guard, the loop, the global
pruning fallback that fills the completed set from the live set, the
final sort, and the n-best list construction, whose list indexing
raises (`none`) when fewer than `nbest` hypotheses remain. -/
def beam_search_utt (P : BeamParams) (O : BeamOracles) (elens : Nat) :
    Option (List (List Nat)) :=
  if 1 ≤ P.nbest ∧ P.nbest ≤ P.beam_width then
    match beamLoop P O elens (ytimeOf elens P.max_len_rat)
        [{ hyp := [P.eos], score := 0, score_attn := 0, score_cp := 0,
           score_ctc := 0, score_lm := 0 }] [] with
    | none => none
    | some (ends, hyps) =>
      let ends2 := if ends.isEmpty then hyps
        else if ends.length < P.nbest ∧ 1 < P.nbest then
          ends ++ hyps.take (P.nbest - ends.length)
        else ends
      let ends3 := sortDescBy BeamHyp.score ends2
      if ends3.length < P.nbest then none
      else some ((ends3.take P.nbest).map (fun h => h.hyp.drop 1))
  else none

/-- Attention-path pre-selection as specified: the top `beam_width`
candidate tokens by cumulative attention score plus this step's
log-probabilities, scaled by `(1 - ctc_weight)`, before any LM, length
penalty, coverage penalty or CTC term is added. -/
def attnPreselSpec (P : BeamParams) (O : BeamOracles) (beam : BeamHyp) :
    List (Nat × ℚ) :=
  (sortDescBy Prod.snd ((List.range P.vocab).map
    (fun v => (beam.score_attn + O.sattn beam.hyp v) * (1 - P.ctc_weight))).enum).take
    P.beam_width

theorem topk_attn_eq (P : BeamParams) (O : BeamOracles) (beam : BeamHyp)
    (hbw : P.beam_width ≤ P.vocab) :
    topkPairs P.beam_width (attnTotalScores P O beam)
      = some (attnPreselSpec P O beam) := by
  unfold topkPairs attnPreselSpec attnTotalScores
  rw [if_neg]
  simp only [List.length_map, List.length_range]
  omega

theorem lmStage_id (P : BeamParams) (O : BeamOracles) (beam : BeamHyp)
    (pre : List (Nat × ℚ)) :
    (lmStage P O beam pre).map CandRow.id = pre.map Prod.fst := by
  cases h : O.slm <;> simp [lmStage, h, List.map_map, Function.comp]

theorem lpStage_id (P : BeamParams) (O : BeamOracles) (beam : BeamHyp)
    (rows : List CandRow) :
    (lpStage P O beam rows).map CandRow.id = rows.map CandRow.id := by
  unfold lpStage
  split_ifs <;> simp [List.map_map, Function.comp]

theorem cpStage_id (P : BeamParams) (O : BeamOracles) (beam : BeamHyp)
    (rows : List CandRow) :
    (cpStage P O beam rows).map CandRow.id = rows.map CandRow.id := by
  unfold cpStage
  split_ifs <;> simp [List.map_map, Function.comp]

theorem lmStage_length (P : BeamParams) (O : BeamOracles) (beam : BeamHyp)
    (pre : List (Nat × ℚ)) : (lmStage P O beam pre).length = pre.length := by
  cases h : O.slm <;> simp [lmStage, h]

theorem lpStage_length (P : BeamParams) (O : BeamOracles) (beam : BeamHyp)
    (rows : List CandRow) : (lpStage P O beam rows).length = rows.length := by
  unfold lpStage
  split_ifs <;> simp

theorem cpStage_length (P : BeamParams) (O : BeamOracles) (beam : BeamHyp)
    (rows : List CandRow) : (cpStage P O beam rows).length = rows.length := by
  unfold cpStage
  split_ifs <;> simp

theorem map_id_zipWith_recon :
    ∀ (as bs : List CandRow), as.length = bs.length →
      (List.zipWith (fun s o =>
          ({ id := s.id, tsk := s.tsk, lm := o.lm, ctc := o.ctc } : CandRow)) as bs).map
        CandRow.id = as.map CandRow.id := by
  intro as
  induction as with
  | nil => intro bs _; simp
  | cons a as ih =>
    intro bs h
    cases bs with
    | nil => simp at h
    | cons b bs => simp [ih bs (by simpa using h)]

theorem ctcStage_id_perm (P : BeamParams) (O : BeamOracles) (beam : BeamHyp)
    (rows : List CandRow) (h : rows.length = P.beam_width) :
    ((ctcStage P O beam rows).map CandRow.id).Perm (rows.map CandRow.id) := by
  cases hc : O.ctc with
  | none => simp [ctcStage, hc]
  | some f =>
    simp only [ctcStage, hc]
    set rows2 := rows.map (fun r =>
      { r with ctc := f beam.hyp r.id,
               tsk := r.tsk + f beam.hyp r.id * P.ctc_weight }) with hr2
    have hlen2 : rows2.length = P.beam_width := by simp [hr2, h]
    have htake : (sortDescBy CandRow.tsk rows2).take P.beam_width
        = sortDescBy CandRow.tsk rows2 :=
      List.take_of_length_le (by rw [sortDescBy_length]; omega)
    have hid2 : rows2.map CandRow.id = rows.map CandRow.id := by
      simp [hr2, List.map_map, Function.comp]
    rw [htake, map_id_zipWith_recon _ _ (by rw [sortDescBy_length]), ← hid2]
    exact (sortDescBy_perm CandRow.tsk rows2).map CandRow.id

/-- Claim C1: at every step and for every live hypothesis the candidate
token set entering the per-candidate loop is exactly (a permutation of)
the attention-path top-`beam_width` pre-selection — LM score, length
penalty, coverage penalty and CTC score are added only to this
pre-selected set, and the CTC re-sort merely permutes it; without a CTC
scorer the pre-selected order is returned unchanged. -/
theorem beam_preselection_before_lm_ctc (P : BeamParams) (O : BeamOracles)
    (beam : BeamHyp) (hbw : P.beam_width ≤ P.vocab) :
    ∃ rows, candidateRows P O beam = some rows ∧
      (rows.map CandRow.id).Perm ((attnPreselSpec P O beam).map Prod.fst) ∧
      (O.ctc = none →
        rows.map CandRow.id = (attnPreselSpec P O beam).map Prod.fst) := by
  have hpre := topk_attn_eq P O beam hbw
  refine ⟨ctcStage P O beam (cpStage P O beam (lpStage P O beam
    (lmStage P O beam (attnPreselSpec P O beam)))), ?_, ?_, ?_⟩
  · simp only [candidateRows, hpre]
  · have hplen : (attnPreselSpec P O beam).length = P.beam_width :=
      topkPairs_length hpre
    have hlen3 : (cpStage P O beam (lpStage P O beam
        (lmStage P O beam (attnPreselSpec P O beam)))).length = P.beam_width := by
      rw [cpStage_length, lpStage_length, lmStage_length, hplen]
    have hperm := ctcStage_id_perm P O beam _ hlen3
    rw [cpStage_id, lpStage_id, lmStage_id] at hperm
    exact hperm
  · intro hctc
    simp only [ctcStage, hctc]
    rw [cpStage_id, lpStage_id, lmStage_id]

/-- Claim C7: with only the length penalty active (`lp_weight > 0`, no
LM, no CTC, no coverage penalty), the candidate scores produced for a
step are exactly the attention-path pre-selection scores transformed
by the length penalty: divided by `pow(6 + len, p) / pow(6, p)` in
GNMT mode, and increased by `(len + 1) * p` otherwise, where `len` is
the hypothesis length excluding the start symbol. -/
theorem length_penalty_formula (P : BeamParams) (O : BeamOracles) (beam : BeamHyp)
    (hlm : O.slm = none) (hctc : O.ctc = none) (hcp : ¬ 0 < P.cp_weight)
    (hlp : 0 < P.lp_weight) (hbw : P.beam_width ≤ P.vocab) :
    ∃ rows, candidateRows P O beam = some rows ∧
      rows.map CandRow.tsk = (attnPreselSpec P O beam).map (fun p =>
        if P.gnmt_decoding then
          p.2 / (O.powfn (6 + hlenQ beam) P.lp_weight / O.powfn 6 P.lp_weight)
        else p.2 + (hlenQ beam + 1) * P.lp_weight) := by
  have hpre := topk_attn_eq P O beam hbw
  refine ⟨ctcStage P O beam (cpStage P O beam (lpStage P O beam
    (lmStage P O beam (attnPreselSpec P O beam)))), ?_, ?_⟩
  · simp only [candidateRows, hpre]
  · simp only [ctcStage, hctc, cpStage, if_neg hcp, lmStage, hlm, lpStage, if_pos hlp]
    cases hg : P.gnmt_decoding <;>
      simp [List.map_map, Function.comp]

theorem range_filter_ne : ∀ (n e : Nat), e < n →
    (List.range n).filter (fun v => decide (v ≠ e))
      = (List.range n).take e ++ (List.range n).drop (e + 1) := by
  intro n
  induction n with
  | zero => intro e h; omega
  | succ n ih =>
    intro e h
    rw [List.range_succ]
    by_cases hen : e < n
    · rw [List.filter_append, ih e hen]
      have hfm : List.filter (fun v => decide (v ≠ e)) [n] = [n] := by
        simp
        omega
      rw [hfm,
        List.take_append_of_le_length (by simp [List.length_range]; omega),
        List.drop_append_of_le_length (by simp [List.length_range]; omega),
        List.append_assoc]
    · have hen' : e = n := by omega
      subst hen'
      have hfr : List.filter (fun v => decide (v ≠ e)) (List.range e)
          = List.range e := by
        rw [List.filter_eq_self]
        intro a ha
        simp only [decide_eq_true_eq]
        have := List.mem_range.mp ha
        omega
      have hfm : List.filter (fun v => decide (v ≠ e)) [e] = [] := by simp
      rw [List.filter_append, hfr, hfm, List.append_nil,
        List.take_append_of_le_length (by simp [List.length_range]),
        List.take_of_length_le (by simp [List.length_range]),
        List.drop_eq_nil_of_le (by simp [List.length_range]),
        List.append_nil]

/-- Attention log-probabilities of the non-end-symbol vocabulary entries
for the current step, as named by the specification. -/
def nonEosAttnScores (P : BeamParams) (O : BeamOracles) (beam : BeamHyp) : List ℚ :=
  ((List.range P.vocab).filter (fun v => decide (v ≠ P.eos))).map (O.sattn beam.hyp)

/-- Claim C5: an end-symbol candidate is rejected exactly when the
hypothesis length (excluding the leading start symbol) is below
`min_len_ratio` times the encoder length, or the end symbol's
unnormalised attention log-probability does not exceed `eos_threshold`
times the maximum attention log-probability over the non-end-symbol
vocabulary entries (stated for an end symbol away from the vocabulary
boundary, where the source's slice maxima are defined). -/
theorem eos_rejection_iff (P : BeamParams) (O : BeamOracles) (elens : Nat)
    (beam : BeamHyp) (h1 : 0 < P.eos) (h2 : P.eos + 1 < P.vocab) :
    ∃ m, listMax (nonEosAttnScores P O beam) = some m ∧
      (eosGuard P O elens beam = some true ↔
        (hlenQ beam < (elens : ℚ) * P.min_len_rat ∨
         O.sattn beam.hyp P.eos ≤ P.eos_threshold * m)) := by
  have hdec := range_filter_ne P.vocab P.eos (by omega)
  have htake_ne : ((List.range P.vocab).map (O.sattn beam.hyp)).take P.eos ≠ [] := by
    rw [← List.map_take]
    simp only [ne_eq, List.map_eq_nil_iff]
    rw [List.take_range]
    simp only [List.range_eq_nil]
    omega
  have hdrop_ne : ((List.range P.vocab).map (O.sattn beam.hyp)).drop (P.eos + 1) ≠ [] := by
    rw [← List.map_drop]
    simp only [ne_eq, List.map_eq_nil_iff]
    intro hcon
    have := congrArg List.length hcon
    simp only [List.length_drop, List.length_range, List.length_nil] at this
    omega
  obtain ⟨m1, hm1⟩ := listMax_of_ne_nil htake_ne
  obtain ⟨m2, hm2⟩ := listMax_of_ne_nil hdrop_ne
  have hmm : listMax (nonEosAttnScores P O beam) = some (max m1 m2) := by
    unfold nonEosAttnScores
    rw [hdec, List.map_append, List.map_take, List.map_drop]
    exact listMax_append hm1 hm2
  refine ⟨max m1 m2, hmm, ?_⟩
  by_cases hmin : hlenQ beam < (elens : ℚ) * P.min_len_rat
  · simp [eosGuard, if_pos hmin, hmin]
  · simp only [eosGuard, if_neg hmin]
    rw [hm1, hm2]
    simp [hmin, decide_eq_true_eq]

theorem collectCands_mem (P : BeamParams) (O : BeamOracles) (elens : Nat)
    (beam : BeamHyp) (cp : ℚ) :
    ∀ (rows : List CandRow) (l : List BeamHyp),
      collectCands P O elens beam cp rows = some l →
      ∀ h ∈ l, ∃ r, h = stepHyp P O beam cp r := by
  intro rows
  induction rows with
  | nil =>
    intro l hl h hmem
    simp only [collectCands, Option.some.injEq] at hl
    subst hl
    simp at hmem
  | cons r rest ih =>
    intro l hl h hmem
    simp only [collectCands] at hl
    by_cases hre : r.id = P.eos
    · rw [if_pos hre] at hl
      cases hg : eosGuard P O elens beam with
      | none => rw [hg] at hl; exact absurd hl (by simp)
      | some b =>
        rw [hg] at hl
        cases b with
        | true => exact ih l hl h hmem
        | false =>
          rw [Option.map_eq_some'] at hl
          obtain ⟨tail, htail, hlt⟩ := hl
          subst hlt
          rcases List.mem_cons.mp hmem with hh | hh
          · exact ⟨r, hh⟩
          · exact ih tail htail h hh
    · rw [if_neg hre, Option.map_eq_some'] at hl
      obtain ⟨tail, htail, hlt⟩ := hl
      subst hlt
      rcases List.mem_cons.mp hmem with hh | hh
      · exact ⟨r, hh⟩
      · exact ih tail htail h hh

theorem expandBeam_mem (P : BeamParams) (O : BeamOracles) (elens : Nat)
    (beam : BeamHyp) (l : List BeamHyp) (hl : expandBeam P O elens beam = some l) :
    ∀ h ∈ l, ∃ tok, h.hyp = beam.hyp ++ [tok] := by
  intro h hmem
  unfold expandBeam at hl
  cases hc : candidateRows P O beam with
  | none => rw [hc] at hl; exact absurd hl (by simp)
  | some rows =>
    rw [hc] at hl
    obtain ⟨r, hr⟩ := collectCands_mem P O elens beam _ rows l hl h hmem
    exact ⟨r.id, by rw [hr]; rfl⟩

theorem beamStep_mem (P : BeamParams) (O : BeamOracles) (elens : Nat) :
    ∀ (hyps : List BeamHyp) (cands : List BeamHyp),
      beamStep P O elens hyps = some cands →
      ∀ h ∈ cands, ∃ p ∈ hyps, ∃ tok, h.hyp = p.hyp ++ [tok] := by
  intro hyps
  induction hyps with
  | nil =>
    intro cands hc h hmem
    simp only [beamStep, Option.some.injEq] at hc
    subst hc
    simp at hmem
  | cons b rest ih =>
    intro cands hc h hmem
    simp only [beamStep] at hc
    cases he : expandBeam P O elens b with
    | none => rw [he] at hc; exact absurd hc (by simp)
    | some c =>
      cases hr : beamStep P O elens rest with
      | none => rw [he, hr] at hc; exact absurd hc (by simp)
      | some rcands =>
        rw [he, hr, Option.some.injEq] at hc
        subst hc
        rcases List.mem_append.mp hmem with hh | hh
        · obtain ⟨tok, htok⟩ := expandBeam_mem P O elens b c he h hh
          exact ⟨b, List.mem_cons_self b rest, tok, htok⟩
        · obtain ⟨p, hp, tok, htok⟩ := ih rcands hr h hh
          exact ⟨p, List.mem_cons_of_mem b hp, tok, htok⟩

/-- Claim C6: in every beam-search iteration the surviving live set has
at most `beam_width` hypotheses, every newly produced hypothesis
(completed or live) extends some parent from the previous live set by
exactly one appended token, no live hypothesis is complete (so a
hypothesis moved to the completed set is never extended again), and
along the whole loop the completed set only ever grows by appending. -/
theorem beam_hypothesis_lifecycle (P : BeamParams) (O : BeamOracles) (elens : Nat) :
    (∀ (hyps comp live : List BeamHyp),
      beamIter P O elens hyps = some (comp, live) →
        live.length ≤ P.beam_width ∧
        (∀ h ∈ comp ++ live, ∃ p ∈ hyps, ∃ tok, h.hyp = p.hyp ++ [tok]) ∧
        (∀ h ∈ live, ¬ isComplete P.eos h = true))
  ∧ (∀ (fuel : Nat) (hyps ends endsF liveF : List BeamHyp),
      ends.length < P.beam_width →
      beamLoop P O elens fuel hyps ends = some (endsF, liveF) →
      ∃ tail, endsF = ends ++ tail) := by
  constructor
  · intro hyps comp live hiter
    unfold beamIter at hiter
    cases hc : beamStep P O elens hyps with
    | none => rw [hc] at hiter; exact absurd hiter (by simp)
    | some cands =>
      rw [hc, Option.some.injEq] at hiter
      have hlive : live = ((sortDescBy BeamHyp.score cands).take P.beam_width).filter
          (fun h => ! isComplete P.eos h) := by
        have := congrArg Prod.snd hiter
        simpa [List.partition_eq_filter_filter, Function.comp] using this.symm
      have hcomp' : comp = ((sortDescBy BeamHyp.score cands).take P.beam_width).filter
          (isComplete P.eos) := by
        have := congrArg Prod.fst hiter
        simpa [List.partition_eq_filter_filter] using this.symm
      have hmem_pruned : ∀ h ∈ (sortDescBy BeamHyp.score cands).take P.beam_width,
          h ∈ cands := by
        intro h hh
        exact (sortDescBy_perm BeamHyp.score cands).mem_iff.mp (List.mem_of_mem_take hh)
      refine ⟨?_, ?_, ?_⟩
      · rw [hlive]
        calc (((sortDescBy BeamHyp.score cands).take P.beam_width).filter
              (fun h => ! isComplete P.eos h)).length
            ≤ ((sortDescBy BeamHyp.score cands).take P.beam_width).length :=
              List.length_filter_le _ _
          _ ≤ P.beam_width := by
              simp only [List.length_take]
              omega
      · intro h hmem
        have hin : h ∈ (sortDescBy BeamHyp.score cands).take P.beam_width := by
          rcases List.mem_append.mp hmem with hh | hh
          · rw [hcomp'] at hh
            exact (List.mem_filter.mp hh).1
          · rw [hlive] at hh
            exact (List.mem_filter.mp hh).1
        exact beamStep_mem P O elens hyps cands hc h (hmem_pruned h hin)
      · intro h hh
        rw [hlive] at hh
        have := (List.mem_filter.mp hh).2
        simpa using this
  · intro fuel
    induction fuel with
    | zero =>
      intro hyps ends endsF liveF hlen hloop
      simp only [beamLoop, Option.some.injEq] at hloop
      have h1 : ends = endsF := congrArg Prod.fst hloop
      exact ⟨[], by rw [← h1, List.append_nil]⟩
    | succ fuel ih =>
      intro hyps ends endsF liveF hlen hloop
      simp only [beamLoop] at hloop
      by_cases hemp : hyps.isEmpty
      · rw [if_pos hemp] at hloop
        exact absurd hloop (by simp)
      · rw [if_neg hemp] at hloop
        cases hit : beamIter P O elens hyps with
        | none => rw [hit] at hloop; exact absurd hloop (by simp)
        | some cl =>
          rw [hit] at hloop
          dsimp only at hloop
          by_cases hbrk : P.beam_width ≤ (ends ++ cl.1).length
          · rw [if_pos hbrk, Option.some.injEq] at hloop
            refine ⟨cl.1.take (P.beam_width - ends.length), ?_⟩
            have h1 : (ends ++ cl.1).take P.beam_width = endsF :=
              congrArg Prod.fst hloop
            rw [← h1, List.take_append_eq_append_take,
              List.take_of_length_le (by omega)]
          · rw [if_neg hbrk] at hloop
            obtain ⟨tail, htail⟩ := ih cl.2 (ends ++ cl.1) endsF liveF (by
              simp only [List.length_append] at hbrk ⊢
              omega) hloop
            exact ⟨cl.1 ++ tail, by rw [htail, List.append_assoc]⟩

/-- Concrete decoding parameters used to evaluate the theorems: beam
width `2` over a vocabulary of `3` tokens with end symbol `1`, additive
length penalty, no LM, no CTC, no coverage penalty. -/
def Ptest : BeamParams :=
  { beam_width := 2, nbest := 1, eos := 1, vocab := 3, ctc_weight := 0,
    lm_weight := 0, lp_weight := 1, gnmt_decoding := false, cp_weight := 0,
    length_norm := false, eos_threshold := 1, min_len_rat := 1/2,
    max_len_rat := 1 }

/-- Concrete oracles: token `2` has log-probability `0`, every other
token `-1`, at every step. -/
def Otest : BeamOracles :=
  { sattn := fun _ v => if v = 2 then 0 else -1,
    slm := none, ctc := none, cpOf := fun _ => 0, powfn := fun a b => a + b }

/-- Initial hypothesis of a beam-search run under `Ptest`. -/
def bhInit : BeamHyp :=
  { hyp := [1], score := 0, score_attn := 0, score_cp := 0,
    score_ctc := 0, score_lm := 0 }

/-- Child hypothesis produced from `bhInit` at the first step under
`Ptest` and `Otest`. -/
def bhChild : BeamHyp :=
  { hyp := [1, 2], score := 1, score_attn := 0, score_cp := 0,
    score_ctc := 0, score_lm := 0 }

/-- Claim C1 witness: the pre-selection property evaluated on the
concrete configuration. -/
theorem beam_preselection_witness :
    ∃ rows, candidateRows Ptest Otest bhInit = some rows ∧
      (rows.map CandRow.id).Perm ((attnPreselSpec Ptest Otest bhInit).map Prod.fst) ∧
      (Otest.ctc = none →
        rows.map CandRow.id = (attnPreselSpec Ptest Otest bhInit).map Prod.fst) :=
  beam_preselection_before_lm_ctc Ptest Otest bhInit (by decide)

/-- Claim C7 witness: the length-penalty formula evaluated on the
concrete configuration. -/
theorem length_penalty_witness :
    ∃ rows, candidateRows Ptest Otest bhInit = some rows ∧
      rows.map CandRow.tsk = (attnPreselSpec Ptest Otest bhInit).map (fun p =>
        if Ptest.gnmt_decoding then
          p.2 / (Otest.powfn (6 + hlenQ bhInit) Ptest.lp_weight /
            Otest.powfn 6 Ptest.lp_weight)
        else p.2 + (hlenQ bhInit + 1) * Ptest.lp_weight) :=
  length_penalty_formula Ptest Otest bhInit rfl rfl (by decide) (by decide) (by decide)

/-- Claim C5 witness: the end-symbol rejection condition evaluated on
the concrete configuration with encoder length `4`. -/
theorem eos_rejection_witness :
    ∃ m, listMax (nonEosAttnScores Ptest Otest bhInit) = some m ∧
      (eosGuard Ptest Otest 4 bhInit = some true ↔
        (hlenQ bhInit < ((4 : Nat) : ℚ) * Ptest.min_len_rat ∨
         Otest.sattn bhInit.hyp Ptest.eos ≤ Ptest.eos_threshold * m)) :=
  eos_rejection_iff Ptest Otest 4 bhInit (by decide) (by decide)

/-- Claim C6 witness: the lifecycle properties evaluated on one concrete
iteration and one concrete loop run. -/
theorem beam_lifecycle_witness :
    (([bhChild] : List BeamHyp).length ≤ Ptest.beam_width ∧
      (∀ h ∈ ([] : List BeamHyp) ++ [bhChild],
        ∃ p ∈ [bhInit], ∃ tok, h.hyp = p.hyp ++ [tok]) ∧
      (∀ h ∈ [bhChild], ¬ isComplete Ptest.eos h = true))
  ∧ (∃ tail, ([] : List BeamHyp) = [] ++ tail) := by
  have h := beam_hypothesis_lifecycle Ptest Otest 4
  exact ⟨h.1 [bhInit] [] [bhChild] (by decide),
         h.2 1 [bhInit] [] [] [bhChild] (by decide) (by decide)⟩

/-- Parameters of the crashing beam-search run: beam width `1` and a
minimum-length constraint that rejects the only candidate. -/
def Pcrash : BeamParams :=
  { beam_width := 1, nbest := 1, eos := 1, vocab := 3, ctc_weight := 0,
    lm_weight := 0, lp_weight := 0, gnmt_decoding := false, cp_weight := 0,
    length_norm := false, eos_threshold := 1, min_len_rat := 1/2,
    max_len_rat := 1 }

/-- Oracles of the crashing run: the end symbol is the arg-max of every
step's distribution. -/
def Ocrash : BeamOracles :=
  { sattn := fun _ v => if v = 1 then 0 else -1,
    slm := none, ctc := none, cpOf := fun _ => 0, powfn := fun a b => a + b }

/-- Claim C3 (refuted): whole-utterance beam search aborts on a runtime
error for this input — with beam width `1`, the only candidate of the
first step is an end symbol rejected by the minimum-length constraint,
the live set empties, and the next iteration's `torch.cat` over the
empty hypothesis list raises, so no n-best list is produced. -/
theorem beam_search_empty_beam_crash :
    beam_search_utt Pcrash Ocrash 4 = none := by decide

/-! ## Ensemble score combination (las.py 986-1011)

The softmax outputs of the main decoder and of each ensemble decoder
are black-box probability distributions over the vocabulary; `torch.log`
is an opaque function on scores. -/

/-- Probability accumulation of the ensemble path: start from the main
model's softmax output (las.py 986) and add each ensemble decoder's
softmax output in the probability domain (las.py 1007-1008). -/
def ensembleProbs (probs_main : Nat → ℚ) (ensmbl : List (Nat → ℚ)) (v : Nat) : ℚ :=
  ensmbl.foldl (fun acc dec => acc + dec v) (probs_main v)

/-- Per-step attention-path log-score with an ensemble,
`torch.log(probs) / n_models` where `n_models = len(ensmbl_decs) + 1`
(las.py 867, 1010-1011). -/
def ensembleScoresAttn (logf : ℚ → ℚ) (probs_main : Nat → ℚ)
    (ensmbl : List (Nat → ℚ)) (v : Nat) : ℚ :=
  logf (ensembleProbs probs_main ensmbl v) / ((ensmbl.length + 1 : Nat) : ℚ)

theorem ensembleProbs_eq_sum (v : Nat) :
    ∀ (ensmbl : List (Nat → ℚ)) (a : ℚ),
      ensmbl.foldl (fun acc dec => acc + dec v) a
        = a + (ensmbl.map (fun dec => dec v)).sum := by
  intro ensmbl
  induction ensmbl with
  | nil => intro a; simp
  | cons d ds ih =>
    intro a
    simp only [List.foldl_cons, List.map_cons, List.sum_cons]
    rw [ih]
    ring

/-- Claim C8: with an ensemble configured, the per-step attention-path
log-score of a candidate token is the logarithm of the sum of all
models' softmax probabilities of that token — summed in the probability
domain, with one log taken afterwards — divided by the total model
count. -/
theorem ensemble_log_sum_probs (logf : ℚ → ℚ) (probs_main : Nat → ℚ)
    (ensmbl : List (Nat → ℚ)) (v : Nat) :
    ensembleScoresAttn logf probs_main ensmbl v
      = logf (probs_main v + (ensmbl.map (fun dec => dec v)).sum)
        / ((ensmbl.length : ℚ) + 1) := by
  unfold ensembleScoresAttn ensembleProbs
  rw [ensembleProbs_eq_sum]
  push_cast
  ring_nf

/-! ## Chunk-synchronous beam search (`RNNDecoder.beam_search_chunk_sync`,
las.py 1192-1398)

Same modelling as the whole-utterance decoder, with the streaming
differences of the source: the attention-weight sum that decides the
pass-through branch is an oracle `awsum t prefix` (the stored attention
history of a passed-through hypothesis is zeroed in place, so later
outputs may depend on the step index), the length penalty is additive
and unconditional, there is no coverage penalty and no minimum-length
eos test, scores are always divided by the hypothesis length plus one,
and `n_forced_eos` stays `0` throughout (the source never changes it).
The loop additionally returns the number of executed iterations.  The
second-pass LM rescoring and the persisted decoder state are outside
the returned value; a `none` result is an abnormal termination before
any state is stored. -/

/-- Hypothesis record of `beam_search_chunk_sync` (las.py 1235-1245),
with the streaming `no_trigger` flag. -/
structure ChunkHyp where
  hyp : List Nat
  score : ℚ
  score_attn : ℚ
  score_ctc : ℚ
  score_lm : ℚ
  no_trigger : Bool
deriving DecidableEq

/-- Decoding parameters of `beam_search_chunk_sync` (las.py 1198-1204). -/
structure ChunkParams where
  beam_width : Nat
  eos : Nat
  vocab : Nat
  ctc_weight : ℚ
  lm_weight : ℚ
  lp_weight : ℚ
  eos_threshold : ℚ
  max_len_rat : ℚ
deriving DecidableEq

/-- Oracles of the chunk-synchronous decoder: per-step log-softmax row
`sattn t prefix v` (las.py 1285), attention-weight sum `awsum t prefix`
(las.py 1291), shallow-fusion LM scores and cumulative CTC prefix
scores. -/
structure ChunkOracles where
  sattn : Nat → List Nat → Nat → ℚ
  awsum : Nat → List Nat → ℚ
  slm : Option (Nat → List Nat → Nat → ℚ)
  ctc : Option (List Nat → Nat → ℚ)

/-- Candidate block of one hypothesis at step `t` (las.py 1297-1328):
attention-path top-k pre-selection, LM stage, unconditional additive
length penalty, CTC stage with re-sort (slot bookkeeping as in the
whole-utterance decoder). -/
def chunkCandRows (P : ChunkParams) (O : ChunkOracles) (t : Nat) (beam : ChunkHyp) :
    Option (List CandRow) :=
  match topkPairs P.beam_width ((List.range P.vocab).map
      (fun v => (beam.score_attn + O.sattn t beam.hyp v) * (1 - P.ctc_weight))) with
  | none => none
  | some pre =>
    let rows : List CandRow := match O.slm with
      | some lmf =>
        pre.map (fun p =>
          { id := p.1, tsk := p.2 + (beam.score_lm + lmf t beam.hyp p.1) * P.lm_weight,
            lm := beam.score_lm + lmf t beam.hyp p.1, ctc := 0 })
      | none => pre.map (fun p => { id := p.1, tsk := p.2, lm := 0, ctc := 0 })
    let rows2 : List CandRow := rows.map (fun r =>
      { r with tsk := r.tsk + (((beam.hyp.length - 1 : Nat) : ℚ) + 1) * P.lp_weight })
    some (match O.ctc with
      | some ctcf =>
        let rows3 : List CandRow := rows2.map (fun r =>
          { r with ctc := ctcf beam.hyp r.id,
                   tsk := r.tsk + ctcf beam.hyp r.id * P.ctc_weight })
        List.zipWith (fun s o => ({ id := s.id, tsk := s.tsk, lm := o.lm, ctc := o.ctc } : CandRow))
          ((sortDescBy CandRow.tsk rows3).take P.beam_width) rows3
      | none => rows2)

/-- End-symbol admission test of the streaming decoder (las.py
1334-1339): the eos-threshold comparison only (no minimum-length test);
`none` models the empty-slice `.max(0)` RuntimeError. -/
def chunkEosGuard (P : ChunkParams) (O : ChunkOracles) (t : Nat) (beam : ChunkHyp) :
    Option Bool :=
  let row := (List.range P.vocab).map (O.sattn t beam.hyp)
  match listMax (row.take P.eos), listMax (row.drop (P.eos + 1)) with
  | some m1, some m2 =>
    some (decide (O.sattn t beam.hyp P.eos ≤ P.eos_threshold * max m1 m2))
  | _, _ => none

/-- New hypothesis from candidate slot `r` (las.py 1341-1352): the
total score is always divided by the hypothesis length plus one, and
the child's `no_trigger` flag is `False`. -/
def chunkStepHyp (P : ChunkParams) (O : ChunkOracles) (t : Nat) (beam : ChunkHyp)
    (r : CandRow) : ChunkHyp :=
  { hyp := beam.hyp ++ [r.id],
    score := r.tsk / (((beam.hyp.length - 1 : Nat) : ℚ) + 1),
    score_attn := beam.score_attn + O.sattn t beam.hyp r.id,
    score_ctc := r.ctc,
    score_lm := r.lm,
    no_trigger := false }

/-- Per-candidate loop of the streaming decoder (las.py 1330-1352). -/
def chunkCollect (P : ChunkParams) (O : ChunkOracles) (t : Nat) (beam : ChunkHyp) :
    List CandRow → Option (List ChunkHyp)
  | [] => some []
  | r :: rest =>
    if r.id = P.eos then
      match chunkEosGuard P O t beam with
      | none => none
      | some true => chunkCollect P O t beam rest
      | some false =>
        (chunkCollect P O t beam rest).map (chunkStepHyp P O t beam r :: ·)
    else
      (chunkCollect P O t beam rest).map (chunkStepHyp P O t beam r :: ·)

/-- Expansion of one hypothesis at step `t` (las.py 1289-1352): when the
attention weights sum to zero (no trigger point in the chunk) the
hypothesis is passed through as `beam.copy()` — its stored attention
history is zeroed, which the oracles absorb, and its `no_trigger` flag
is left exactly as it was; otherwise the hypothesis is expanded. -/
def chunkExpand (P : ChunkParams) (O : ChunkOracles) (t : Nat) (beam : ChunkHyp) :
    Option (List ChunkHyp) :=
  if O.awsum t beam.hyp = 0 then some [beam]
  else
    match chunkCandRows P O t beam with
    | none => none
    | some rows => chunkCollect P O t beam rows

/-- All children of one step, in the source's `j`-then-`k` order. -/
def chunkStep (P : ChunkParams) (O : ChunkOracles) (t : Nat) :
    List ChunkHyp → Option (List ChunkHyp)
  | [] => some []
  | b :: rest =>
    match chunkExpand P O t b, chunkStep P O t rest with
    | some c, some r => some (c ++ r)
    | _, _ => none

/-- Completion test of the streaming decoder (las.py 1360). -/
def chunkComplete (eos : Nat) (h : ChunkHyp) : Bool :=
  decide (1 < h.hyp.length) && decide (h.hyp.getLast? = some eos)

/-- Per-chunk decoding loop (las.py 1250-1367): before each step the
loop breaks when `t > 0` and the `no_trigger` flags of all live
hypotheses sum to their count (with the flags never set, this fires
only on an empty live set; an empty live set at `t = 0` instead crashes
in `torch.cat`, hence `none`); then one step, local pruning, the
completion split, and the `beam_width + n_forced_eos` break with
`n_forced_eos = 0`.  Returns the completed set, the live segment as the
loop leaves it, and the number of executed iterations. -/
def chunkLoop (P : ChunkParams) (O : ChunkOracles) :
    Nat → Nat → List ChunkHyp → List ChunkHyp →
      Option (List ChunkHyp × List ChunkHyp × Nat)
  | t, 0, hyps, ends => some (ends, hyps, t)
  | t, fuel + 1, hyps, ends =>
    if 0 < t ∧ hyps.countP (fun c => c.no_trigger) = hyps.length then
      some (ends, hyps, t)
    else if hyps.isEmpty then none
    else
      match chunkStep P O t hyps with
      | none => none
      | some cands =>
        let pruned := (sortDescBy ChunkHyp.score cands).take P.beam_width
        let cl := pruned.partition (chunkComplete P.eos)
        if P.beam_width + 0 ≤ (ends ++ cl.1).length then
          some ((ends ++ cl.1).take (P.beam_width + 0), hyps, t + 1)
        else chunkLoop P O (t + 1) fuel cl.2 (ends ++ cl.1)

/-- Embedding of `beam_search_chunk_sync` (las.py 1192-1398): the two
leading `assert` statements (batch size `1`, MoChA attention), the
fresh or carried-over hypothesis segment, the per-chunk loop, and the
final sort of the completed set.  A failed assertion is `none` before
any decoding state is touched. -/
def beam_search_chunk_sync (bs : Nat) (attn_type : String) (P : ChunkParams)
    (O : ChunkOracles) (chunk_len : Nat) (hyps_segment : Option (List ChunkHyp)) :
    Option (List ChunkHyp × List ChunkHyp × Nat) :=
  if bs = 1 ∧ attn_type = "mocha" then
    match chunkLoop P O 0 (ytimeOf chunk_len P.max_len_rat)
        (match hyps_segment with
          | none => [{ hyp := [P.eos], score := 0, score_attn := 0,
                       score_ctc := 0, score_lm := 0, no_trigger := false }]
          | some hs => hs) [] with
    | none => none
    | some (ends, live, steps) =>
      some (sortDescBy ChunkHyp.score ends, live, steps)
  else none

/-- Claim C10: chunk-synchronous beam search requires batch size `1`
and the `mocha` attention type; any call violating either precondition
terminates on the leading assertions, before any decoding state is
touched. -/
theorem chunk_sync_preconditions (bs : Nat) (attn_type : String)
    (P : ChunkParams) (O : ChunkOracles) (chunk_len : Nat)
    (hyps_segment : Option (List ChunkHyp))
    (h : bs ≠ 1 ∨ attn_type ≠ "mocha") :
    beam_search_chunk_sync bs attn_type P O chunk_len hyps_segment = none := by
  unfold beam_search_chunk_sync
  rw [if_neg]
  rcases h with h | h <;> exact fun hc => h (by tauto)

/-- Concrete streaming parameters for evaluation. -/
def Pchunk : ChunkParams :=
  { beam_width := 1, eos := 1, vocab := 3, ctc_weight := 0, lm_weight := 0,
    lp_weight := 0, eos_threshold := 1, max_len_rat := 1 }

/-- Concrete streaming oracles on which no step finds a trigger point:
the attention-weight sum is `0` for every hypothesis at every step. -/
def OchunkNoTrig : ChunkOracles :=
  { sattn := fun _ _ v => if v = 2 then 0 else -1,
    awsum := fun _ _ => 0,
    slm := none, ctc := none }

/-- Claim C10 witness: a call with batch size `2` fails the assertion. -/
theorem chunk_sync_preconditions_witness :
    beam_search_chunk_sync 2 "mocha" Pchunk OchunkNoTrig 3 none = none :=
  chunk_sync_preconditions 2 "mocha" Pchunk OchunkNoTrig 3 none (Or.inl (by decide))

/-- Claim C2 (refuted on the halting part): on a chunk of length `3`
(so `ytime = 4`) where no hypothesis finds a trigger point at any step,
every step passes the single live hypothesis through unchanged, yet the
loop runs all `4` iterations instead of halting after the first — the
source never assigns `no_trigger = True` (the flag is initialised
`False` at las.py 1245 and 1352 and `beam.copy()` preserves it), so the
all-flagged halting condition of las.py 1252 can only fire on an empty
live set, and the returned hypothesis still carries `no_trigger =
false`. -/
theorem chunk_no_trigger_flag_never_set :
    beam_search_chunk_sync 1 "mocha" Pchunk OchunkNoTrig 3 none
      = some ([], [{ hyp := [1], score := 0, score_attn := 0, score_ctc := 0,
                     score_lm := 0, no_trigger := false }], 4) := by decide
